import Mathlib

/-!
Shallow embedding of the KabuPilot portfolio ledger core
(`src/backend/kabupilot/models.py`, `src/backend/kabupilot/repository.py`,
`src/backend/kabupilot/db.py`, `src/backend/kabupilot/knowledge.py`).

Python floats are modelled by `ℚ`.  The sqlite connection produced by
`get_connection` is modelled by a pair of database states: `durable` (what is
on disk / committed) and `pending` (what the connection's cursor sees,
including uncommitted writes).  `commit` copies pending onto durable;
closing a connection without committing (what happens when an exception
escapes the `with get_connection(...)` block) discards the pending writes.
-/

namespace KabuPilot

/-- Embeds `models.Position`: one open holding, keyed by symbol. -/
structure Position where
  symbol : String
  shares : ℚ
  avg_price : ℚ
deriving DecidableEq, Repr

/-- Embeds `models.WatchlistEntry`. -/
structure WatchlistEntry where
  symbol : String
  note : String
deriving DecidableEq, Repr

/-- Embeds `models.Transaction`: a trade proposal. -/
structure Transaction where
  kind : String
  symbol : String
  shares : ℚ
  price : ℚ
  reason : String
deriving DecidableEq, Repr

/-- Embeds `models.Transaction.cash_impact`:
`multiplier = -1 if self.kind == "buy" else 1; multiplier * shares * price`. -/
def Transaction.cash_impact (tx : Transaction) : ℚ :=
  (if tx.kind = "buy" then (-1 : ℚ) else 1) * tx.shares * tx.price

/-- A row of the `activity_log` table.  `details` holds the serialized
transaction (`json.dumps(asdict(tx))` in the source); serialization is kept
abstract by storing the transaction itself. -/
structure ActivityEntry where
  timestamp : String
  agent : String
  activity_type : String
  summary : String
  details : Transaction
deriving DecidableEq, Repr

/-- The durable contents of the database relevant to the ledger core:
`portfolio_meta.cash_balance`, the `positions` table, the append-only
`activity_log`, and the `watchlist`. -/
structure DBState where
  cash_balance : ℚ
  positions : List Position
  activity_log : List ActivityEntry
  watchlist : List WatchlistEntry
deriving DecidableEq, Repr

/-- Initial state: `db.initialize_database` seeds `portfolio_meta.cash_balance` with
`100000.0` and creates empty tables. -/
def initialState : DBState :=
  { cash_balance := 100000, positions := [], activity_log := [], watchlist := [] }

/-- The float tolerance `1e-6` used by `apply_transactions`. -/
def eps : ℚ := 1 / 1000000

/-- The read `SELECT shares, avg_price FROM positions WHERE symbol = ?` + `fetchone()`
(the `symbol` column is UNIQUE, so at most one row matches). -/
def findPosition (ps : List Position) (symbol : String) : Option Position :=
  ps.find? (fun p => p.symbol == symbol)

/-- The write `INSERT INTO positions ... ON CONFLICT(symbol) DO UPDATE SET shares =
excluded.shares, avg_price = excluded.avg_price`: update the row with the
same symbol in place when it exists, insert otherwise. -/
def upsertInto (ps : List Position) (p : Position) : List Position :=
  if ps.any (fun q => q.symbol == p.symbol) then
    ps.map (fun q => if q.symbol == p.symbol then p else q)
  else
    ps ++ [p]

/-- The write `DELETE FROM positions WHERE symbol = ?`. -/
def deleteFrom (ps : List Position) (symbol : String) : List Position :=
  ps.filter (fun q => !(q.symbol == symbol))

/-- The write `UPDATE positions SET shares = ? WHERE symbol = ?` (avg_price untouched). -/
def setShares (ps : List Position) (symbol : String) (shares : ℚ) : List Position :=
  ps.map (fun q => if q.symbol == symbol then { q with shares := shares } else q)

/-- A live sqlite connection (`db.get_connection`): the committed (durable)
state together with the uncommitted view seen through this connection's
cursor. -/
structure Conn where
  durable : DBState
  pending : DBState
deriving DecidableEq, Repr

/-- Opening a connection: the cursor initially sees exactly the durable
state. -/
def get_connection (s : DBState) : Conn :=
  { durable := s, pending := s }

/-- Committing (`connection.commit()`): pending writes become durable. -/
def Conn.commit (c : Conn) : Conn :=
  { durable := c.pending, pending := c.pending }

/-- Closing (`connection.close()`, run by the `finally` of `get_connection`): the durable
state is what survives; uncommitted pending writes are discarded. -/
def Conn.close (c : Conn) : DBState :=
  c.durable

/-- A `cursor.execute` that mutates: applies a write to the pending view
only. -/
def Conn.exec (c : Conn) (f : DBState → DBState) : Conn :=
  { durable := c.durable, pending := f c.pending }

/-- The typed validation errors raised by `apply_transactions` (all raised as
`ValueError` in the source). -/
inductive TxError where
  | unsupportedKind (kind : String)
  | negativeCash
  | noSuchPosition (symbol : String)
  | oversizedSell (symbol : String)
deriving DecidableEq, Repr

/-- The activity row inserted for one applied transaction:
`(utcnow, "Decider", "transaction:"+kind, kind.upper()+" "+symbol, dumps(tx))`. -/
def auditEntry (now : String) (tx : Transaction) : ActivityEntry :=
  { timestamp := now
    agent := "Decider"
    activity_type := "transaction:" ++ tx.kind
    summary := tx.kind.toUpper ++ " " ++ tx.symbol
    details := tx }

/-- The position row written by the `buy` branch: `new_shares =
(position_row[0] if position_row else 0.0) + tx.shares`; `new_avg` is the
blended cost basis when a row exists, `tx.price` otherwise. -/
def buyPosition (row : Option Position) (tx : Transaction) : Position :=
  match row with
  | some p =>
    ⟨tx.symbol, p.shares + tx.shares,
      (p.shares * p.avg_price + tx.shares * tx.price) / (p.shares + tx.shares)⟩
  | none => ⟨tx.symbol, 0 + tx.shares, tx.price⟩

/-- The `INSERT INTO activity_log ...` executed for each applied
transaction. -/
def logTx (now : String) (tx : Transaction) (c : Conn) : Conn :=
  c.exec (fun s => { s with activity_log := s.activity_log ++ [auditEntry now tx] })

/-- The position upsert executed by the `buy` branch (reads the row through
the same uncommitted cursor it writes through). -/
def writeBuy (c : Conn) (tx : Transaction) : Conn :=
  c.exec (fun s =>
    { s with positions :=
        upsertInto s.positions (buyPosition (findPosition c.pending.positions tx.symbol) tx) })

/-- The position write executed by the `sell` branch: delete the row when the
remainder is within the `1e-6` tolerance of zero, otherwise update only the
share count. -/
def writeSell (c : Conn) (tx : Transaction) (remaining : ℚ) : Conn :=
  if remaining ≤ eps then
    c.exec (fun s => { s with positions := deleteFrom s.positions tx.symbol })
  else
    c.exec (fun s => { s with positions := setShares s.positions tx.symbol remaining })

/-- One iteration of the loop body of `PortfolioRepository.apply_transactions`:
validates and applies a single transaction against the working cash variable
and the connection's pending view.  Returns `(error?, cash, conn)`; on an
error the loop stops (the exception propagates).  Checks run in source
order: kind, then cash after the impact, then (for sells) the position. -/
def processTx (now : String) (cash : ℚ) (c : Conn) (tx : Transaction) :
    Option TxError × ℚ × Conn :=
  if ¬(tx.kind = "buy" ∨ tx.kind = "sell") then
    (some (.unsupportedKind tx.kind), cash, c)
  else if cash + tx.cash_impact < 0 then
    (some .negativeCash, cash + tx.cash_impact, c)
  else if tx.kind = "buy" then
    (none, cash + tx.cash_impact, logTx now tx (writeBuy c tx))
  else
    match findPosition c.pending.positions tx.symbol with
    | none => (some (.noSuchPosition tx.symbol), cash + tx.cash_impact, c)
    | some p =>
      if p.shares - tx.shares < -eps then
        (some (.oversizedSell tx.symbol), cash + tx.cash_impact, c)
      else
        (none, cash + tx.cash_impact, logTx now tx (writeSell c tx (p.shares - tx.shares)))

/-- The `for tx in transactions` loop: process transactions in submission
order, stopping at the first error. -/
def runTxs (now : String) (cash : ℚ) (c : Conn) :
    List Transaction → Option TxError × ℚ × Conn
  | [] => (none, cash, c)
  | tx :: rest =>
    match processTx now cash c tx with
    | (some e, cash', c') => (some e, cash', c')
    | (none, cash', c') => runTxs now cash' c' rest

/-- Embeds `PortfolioRepository.apply_transactions`.  Returns the error (if the
batch raised) together with the durable database state after the call:
an empty batch returns before opening a connection; otherwise the loop runs
on one connection, the final cash balance is written, and only then is
`connection.commit()` called — an exception closes the connection without
committing, so the durable state is untouched. -/
def apply_transactions (now : String) (s : DBState) (txs : List Transaction) :
    Option TxError × DBState :=
  if txs.isEmpty then
    (none, s)
  else
    match runTxs now s.cash_balance (get_connection s) txs with
    | (some e, _, c') => (some e, c'.close)
    | (none, cash, c') =>
      (none, ((c'.exec (fun st => { st with cash_balance := cash })).commit).close)

/-- Embeds `PortfolioRepository.update_cash_balance`: unconditional write of the
cash balance (no validation), committed. -/
def update_cash_balance (s : DBState) (new_balance : ℚ) : DBState :=
  { s with cash_balance := new_balance }

/-- Embeds `PortfolioRepository.upsert_position`, committed. -/
def upsert_position (s : DBState) (p : Position) : DBState :=
  { s with positions := upsertInto s.positions p }

/-- Embeds `PortfolioRepository.remove_position`, committed. -/
def remove_position (s : DBState) (symbol : String) : DBState :=
  { s with positions := deleteFrom s.positions symbol }

/-- Embeds `PortfolioRepository.record_activity`, committed. -/
def record_activity (s : DBState) (a : ActivityEntry) : DBState :=
  { s with activity_log := s.activity_log ++ [a] }

/-- Embeds `PortfolioRepository.replace_watchlist`, committed. -/
def replace_watchlist (s : DBState) (entries : List WatchlistEntry) : DBState :=
  { s with watchlist := entries }

/-- Embeds `knowledge.lookup_price`: `symbol = symbol.upper();
return (abs(hash(symbol)) % 40000) / 100 + 20`.  Python's `hash` on strings
is abstracted as a parameter `pyHash`. -/
def lookup_price (pyHash : String → Int) (symbol : String) : ℚ :=
  (((pyHash symbol.toUpper).natAbs % 40000 : ℕ) : ℚ) / 100 + 20

/-- Embeds `models.Position.market_value`. -/
def Position.market_value (p : Position) (price : ℚ) : ℚ :=
  p.shares * price

/-- Embeds `models.PortfolioSnapshot` (cash + positions + watchlist). -/
structure PortfolioSnapshot where
  cash_balance : ℚ
  positions : List Position
  watchlist : List WatchlistEntry
deriving DecidableEq, Repr

/-- Embeds `models.PortfolioSnapshot.total_market_value`. -/
def PortfolioSnapshot.total_market_value (s : PortfolioSnapshot)
    (price_lookup : String → ℚ) : ℚ :=
  (s.positions.map (fun p => p.market_value (price_lookup p.symbol))).sum

/-- Embeds `models.PortfolioSnapshot.total_equity`. -/
def PortfolioSnapshot.total_equity (s : PortfolioSnapshot)
    (price_lookup : String → ℚ) : ℚ :=
  s.cash_balance + s.total_market_value price_lookup

/-- Embeds `PortfolioRepository.portfolio_snapshot`. -/
def portfolio_snapshot (s : DBState) : PortfolioSnapshot :=
  { cash_balance := s.cash_balance, positions := s.positions, watchlist := s.watchlist }

/-- States reachable from the initialized database through the public
mutating operations of `PortfolioRepository`. -/
inductive Reachable : DBState → Prop
  | init : Reachable initialState
  | apply (now : String) (txs : List Transaction) {s : DBState} :
      Reachable s → Reachable (apply_transactions now s txs).2
  | setCash (b : ℚ) {s : DBState} :
      Reachable s → Reachable (update_cash_balance s b)
  | upsert (p : Position) {s : DBState} :
      Reachable s → Reachable (upsert_position s p)
  | remove (symbol : String) {s : DBState} :
      Reachable s → Reachable (remove_position s symbol)
  | activity (a : ActivityEntry) {s : DBState} :
      Reachable s → Reachable (record_activity s a)
  | watchlist (es : List WatchlistEntry) {s : DBState} :
      Reachable s → Reachable (replace_watchlist s es)

/-- States reachable when cash is mutated only through the Transaction
Applier: the same operations as `Reachable` minus the unvalidated direct
cash write `update_cash_balance`. -/
inductive ApplierReachable : DBState → Prop
  | init : ApplierReachable initialState
  | apply (now : String) (txs : List Transaction) {s : DBState} :
      ApplierReachable s → ApplierReachable (apply_transactions now s txs).2
  | upsert (p : Position) {s : DBState} :
      ApplierReachable s → ApplierReachable (upsert_position s p)
  | remove (symbol : String) {s : DBState} :
      ApplierReachable s → ApplierReachable (remove_position s symbol)
  | activity (a : ActivityEntry) {s : DBState} :
      ApplierReachable s → ApplierReachable (record_activity s a)
  | watchlist (es : List WatchlistEntry) {s : DBState} :
      ApplierReachable s → ApplierReachable (replace_watchlist s es)

/-- Every position row in the table holds strictly more than `1e-6`
shares. -/
def PositionsAboveEps (ps : List Position) : Prop :=
  ∀ p ∈ ps, eps < p.shares

/-- States reachable when every buy carries strictly more than `1e-6`
shares and every directly upserted row does too; the operations are
otherwise those of `Reachable`. -/
inductive GuardedReachable : DBState → Prop
  | init : GuardedReachable initialState
  | apply (now : String) (txs : List Transaction) {s : DBState}
      (hbuy : ∀ tx ∈ txs, tx.kind = "buy" → eps < tx.shares) :
      GuardedReachable s → GuardedReachable (apply_transactions now s txs).2
  | setCash (b : ℚ) {s : DBState} :
      GuardedReachable s → GuardedReachable (update_cash_balance s b)
  | upsert (p : Position) {s : DBState} (hp : eps < p.shares) :
      GuardedReachable s → GuardedReachable (upsert_position s p)
  | remove (symbol : String) {s : DBState} :
      GuardedReachable s → GuardedReachable (remove_position s symbol)
  | activity (a : ActivityEntry) {s : DBState} :
      GuardedReachable s → GuardedReachable (record_activity s a)
  | watchlist (es : List WatchlistEntry) {s : DBState} :
      GuardedReachable s → GuardedReachable (replace_watchlist s es)

/-! ### Helper lemmas about the embedding -/

/-- A cursor write (`Conn.exec`) writes only to the pending view; the durable state is
untouched. -/
theorem Conn.exec_durable (c : Conn) (f : DBState → DBState) :
    (c.exec f).durable = c.durable := rfl

/-- Unfolding `runTxs` on the empty list. -/
theorem runTxs_nil (now : String) (cash : ℚ) (c : Conn) :
    runTxs now cash c [] = (none, cash, c) := rfl

/-- Unfolding `runTxs` on a cons. -/
theorem runTxs_cons (now : String) (cash : ℚ) (c : Conn) (tx : Transaction)
    (rest : List Transaction) :
    runTxs now cash c (tx :: rest) =
      match processTx now cash c tx with
      | (some e, cash', c') => (some e, cash', c')
      | (none, cash', c') => runTxs now cash' c' rest := rfl

theorem logTx_durable (now : String) (tx : Transaction) (c : Conn) :
    (logTx now tx c).durable = c.durable := rfl

theorem writeBuy_durable (c : Conn) (tx : Transaction) :
    (writeBuy c tx).durable = c.durable := rfl

theorem writeSell_durable (c : Conn) (tx : Transaction) (r : ℚ) :
    (writeSell c tx r).durable = c.durable := by
  unfold writeSell
  split <;> rfl

theorem logTx_pending_log (now : String) (tx : Transaction) (c : Conn) :
    (logTx now tx c).pending.activity_log
      = c.pending.activity_log ++ [auditEntry now tx] := rfl

theorem writeBuy_pending_log (c : Conn) (tx : Transaction) :
    (writeBuy c tx).pending.activity_log = c.pending.activity_log := rfl

theorem writeSell_pending_log (c : Conn) (tx : Transaction) (r : ℚ) :
    (writeSell c tx r).pending.activity_log = c.pending.activity_log := by
  unfold writeSell
  split <;> rfl

theorem logTx_pending_positions (now : String) (tx : Transaction) (c : Conn) :
    (logTx now tx c).pending.positions = c.pending.positions := rfl

theorem logTx_pending_watchlist (now : String) (tx : Transaction) (c : Conn) :
    (logTx now tx c).pending.watchlist = c.pending.watchlist := rfl

theorem writeBuy_pending_watchlist (c : Conn) (tx : Transaction) :
    (writeBuy c tx).pending.watchlist = c.pending.watchlist := rfl

theorem writeSell_pending_watchlist (c : Conn) (tx : Transaction) (r : ℚ) :
    (writeSell c tx r).pending.watchlist = c.pending.watchlist := by
  unfold writeSell
  split <;> rfl

/-- Inversion for a failing loop iteration: every raise happens before any
write through the connection in that iteration, so the connection is
returned unchanged. -/
theorem processTx_some_inv (now : String) (cash : ℚ) (c : Conn) (tx : Transaction)
    (e : TxError) (cash' : ℚ) (c' : Conn)
    (h : processTx now cash c tx = (some e, cash', c')) :
    c' = c := by
  by_cases h1 : tx.kind = "buy" ∨ tx.kind = "sell"
  · by_cases h2 : cash + tx.cash_impact < 0
    · simp only [processTx, if_neg (not_not_intro h1), if_pos h2] at h
      cases h
      rfl
    · by_cases h3 : tx.kind = "buy"
      · simp only [processTx, if_neg (not_not_intro h1), if_neg h2, if_pos h3] at h
        simp at h
      · rcases hrow : findPosition c.pending.positions tx.symbol with _ | p
        · simp only [processTx, if_neg (not_not_intro h1), if_neg h2, if_neg h3, hrow] at h
          cases h
          rfl
        · by_cases h4 : p.shares - tx.shares < -eps
          · simp only [processTx, if_neg (not_not_intro h1), if_neg h2, if_neg h3, hrow,
              if_pos h4] at h
            cases h
            rfl
          · simp only [processTx, if_neg (not_not_intro h1), if_neg h2, if_neg h3, hrow,
              if_neg h4] at h
            simp at h
  · simp only [processTx, if_pos h1] at h
    cases h
    rfl

/-- Inversion for a successful loop iteration: the transaction was a
supported kind, the working cash advanced by its impact and passed the
non-negativity guard, and the connection gained the buy upsert or the sell
delete/update, followed by exactly one audit row. -/
theorem processTx_none_inv (now : String) (cash : ℚ) (c : Conn) (tx : Transaction)
    (cash' : ℚ) (c' : Conn)
    (h : processTx now cash c tx = (none, cash', c')) :
    cash' = cash + tx.cash_impact ∧ 0 ≤ cash' ∧
      ((tx.kind = "buy" ∧ c' = logTx now tx (writeBuy c tx)) ∨
        (tx.kind = "sell" ∧ ∃ p, findPosition c.pending.positions tx.symbol = some p ∧
          ¬(p.shares - tx.shares < -eps) ∧
          c' = logTx now tx (writeSell c tx (p.shares - tx.shares)))) := by
  by_cases h1 : tx.kind = "buy" ∨ tx.kind = "sell"
  · by_cases h2 : cash + tx.cash_impact < 0
    · simp only [processTx, if_neg (not_not_intro h1), if_pos h2] at h
      simp at h
    · by_cases h3 : tx.kind = "buy"
      · simp only [processTx, if_neg (not_not_intro h1), if_neg h2, if_pos h3] at h
        cases h
        exact ⟨rfl, not_lt.mp h2, Or.inl ⟨h3, rfl⟩⟩
      · have hs : tx.kind = "sell" := h1.resolve_left h3
        rcases hrow : findPosition c.pending.positions tx.symbol with _ | p
        · simp only [processTx, if_neg (not_not_intro h1), if_neg h2, if_neg h3, hrow] at h
          simp at h
        · by_cases h4 : p.shares - tx.shares < -eps
          · simp only [processTx, if_neg (not_not_intro h1), if_neg h2, if_neg h3, hrow,
              if_pos h4] at h
            simp at h
          · simp only [processTx, if_neg (not_not_intro h1), if_neg h2, if_neg h3, hrow,
              if_neg h4] at h
            cases h
            exact ⟨rfl, not_lt.mp h2, Or.inr ⟨hs, p, rfl, h4, rfl⟩⟩
  · simp only [processTx, if_pos h1] at h
    simp at h

/-- A single loop iteration never touches the durable state. -/
theorem processTx_result_durable (now : String) (cash : ℚ) (c : Conn) (tx : Transaction)
    (e : Option TxError) (cash' : ℚ) (c' : Conn)
    (h : processTx now cash c tx = (e, cash', c')) :
    c'.durable = c.durable := by
  cases e with
  | some e =>
    rw [processTx_some_inv now cash c tx e cash' c' h]
  | none =>
    rcases (processTx_none_inv now cash c tx cash' c' h).2.2 with ⟨_, hc⟩ | ⟨_, p, _, _, hc⟩
    · rw [hc, logTx_durable, writeBuy_durable]
    · rw [hc, logTx_durable, writeSell_durable]

/-- Each successful iteration appends exactly one audit row to the pending
activity log. -/
theorem processTx_none_log (now : String) (cash : ℚ) (c : Conn) (tx : Transaction)
    (cash' : ℚ) (c' : Conn)
    (h : processTx now cash c tx = (none, cash', c')) :
    c'.pending.activity_log = c.pending.activity_log ++ [auditEntry now tx] := by
  rcases (processTx_none_inv now cash c tx cash' c' h).2.2 with ⟨_, hc⟩ | ⟨_, p, _, _, hc⟩
  · rw [hc, logTx_pending_log, writeBuy_pending_log]
  · rw [hc, logTx_pending_log, writeSell_pending_log]

/-- A successful iteration does not change the pending watchlist. -/
theorem processTx_none_watchlist (now : String) (cash : ℚ) (c : Conn) (tx : Transaction)
    (cash' : ℚ) (c' : Conn)
    (h : processTx now cash c tx = (none, cash', c')) :
    c'.pending.watchlist = c.pending.watchlist := by
  rcases (processTx_none_inv now cash c tx cash' c' h).2.2 with ⟨_, hc⟩ | ⟨_, p, _, _, hc⟩
  · rw [hc, logTx_pending_watchlist, writeBuy_pending_watchlist]
  · rw [hc, logTx_pending_watchlist, writeSell_pending_watchlist]

/-- The whole loop never touches the durable state. -/
theorem runTxs_result_durable (now : String) (cash : ℚ) (c : Conn) (txs : List Transaction)
    (e : Option TxError) (cash' : ℚ) (c' : Conn)
    (h : runTxs now cash c txs = (e, cash', c')) :
    c'.durable = c.durable := by
  induction txs generalizing cash c with
  | nil =>
    rw [runTxs_nil] at h
    cases h
    rfl
  | cons tx rest ih =>
    rw [runTxs_cons] at h
    rcases hp : processTx now cash c tx with ⟨e1, cash1, c1⟩
    rw [hp] at h
    cases e1 with
    | none =>
      calc c'.durable = c1.durable := ih cash1 c1 h
        _ = c.durable := processTx_result_durable now cash c tx none cash1 c1 hp
    | some e1 =>
      cases h
      exact processTx_result_durable now cash c tx (some e1) cash' c' hp

/-- Unfolding `runTxs` on a failing head transaction. -/
theorem runTxs_cons_error (now : String) (cash : ℚ) (c : Conn) (tx : Transaction)
    (rest : List Transaction) (e : TxError) (cash' : ℚ) (c' : Conn)
    (h : processTx now cash c tx = (some e, cash', c')) :
    runTxs now cash c (tx :: rest) = (some e, cash', c') := by
  rw [runTxs_cons, h]

/-- Unfolding `runTxs` on a succeeding head transaction. -/
theorem runTxs_cons_none (now : String) (cash : ℚ) (c : Conn) (tx : Transaction)
    (rest : List Transaction) (cash' : ℚ) (c' : Conn)
    (h : processTx now cash c tx = (none, cash', c')) :
    runTxs now cash c (tx :: rest) = runTxs now cash' c' rest := by
  rw [runTxs_cons, h]

/-- A successfully processed front of the batch composes with the rest of
the loop. -/
theorem runTxs_append_none (now : String) (cash : ℚ) (c : Conn)
    (l1 l2 : List Transaction) (cash1 : ℚ) (c1 : Conn)
    (h : runTxs now cash c l1 = (none, cash1, c1)) :
    runTxs now cash c (l1 ++ l2) = runTxs now cash1 c1 l2 := by
  induction l1 generalizing cash c with
  | nil =>
    rw [runTxs_nil] at h
    cases h
    rfl
  | cons tx rest ih =>
    rcases hp : processTx now cash c tx with ⟨e1, cashx, cx⟩
    cases e1 with
    | none =>
      rw [List.cons_append, runTxs_cons_none now cash c tx (rest ++ l2) cashx cx hp]
      rw [runTxs_cons_none now cash c tx rest cashx cx hp] at h
      exact ih cashx cx h
    | some e1 =>
      rw [runTxs_cons_error now cash c tx rest e1 cashx cx hp] at h
      cases h

/-- On success, the final working cash is the initial cash plus the sum of
the per-transaction cash impacts, in order. -/
theorem runTxs_none_cash (now : String) (cash : ℚ) (c : Conn) (txs : List Transaction)
    (cash' : ℚ) (c' : Conn) (h : runTxs now cash c txs = (none, cash', c')) :
    cash' = cash + (txs.map Transaction.cash_impact).sum := by
  induction txs generalizing cash c with
  | nil =>
    rw [runTxs_nil] at h
    cases h
    simp
  | cons tx rest ih =>
    rcases hp : processTx now cash c tx with ⟨e1, cash1, c1⟩
    cases e1 with
    | none =>
      rw [runTxs_cons_none now cash c tx rest cash1 c1 hp] at h
      have hc1 : cash1 = cash + tx.cash_impact :=
        (processTx_none_inv now cash c tx cash1 c1 hp).1
      rw [ih cash1 c1 h, hc1]
      simp only [List.map_cons, List.sum_cons]
      ring
    | some e1 =>
      rw [runTxs_cons_error now cash c tx rest e1 cash1 c1 hp] at h
      cases h

/-- On success of a loop started with non-negative working cash, the final
working cash is non-negative. -/
theorem runTxs_none_cash_nonneg (now : String) (cash : ℚ) (c : Conn)
    (txs : List Transaction) (cash' : ℚ) (c' : Conn)
    (hc : 0 ≤ cash) (h : runTxs now cash c txs = (none, cash', c')) :
    0 ≤ cash' := by
  induction txs generalizing cash c with
  | nil =>
    rw [runTxs_nil] at h
    cases h
    exact hc
  | cons tx rest ih =>
    rcases hp : processTx now cash c tx with ⟨e1, cash1, c1⟩
    cases e1 with
    | none =>
      rw [runTxs_cons_none now cash c tx rest cash1 c1 hp] at h
      exact ih cash1 c1 (processTx_none_inv now cash c tx cash1 c1 hp).2.1 h
    | some e1 =>
      rw [runTxs_cons_error now cash c tx rest e1 cash1 c1 hp] at h
      cases h

/-- On success, the pending activity log has gained exactly one audit row
per transaction, in submission order. -/
theorem runTxs_none_log (now : String) (cash : ℚ) (c : Conn) (txs : List Transaction)
    (cash' : ℚ) (c' : Conn) (h : runTxs now cash c txs = (none, cash', c')) :
    c'.pending.activity_log = c.pending.activity_log ++ txs.map (auditEntry now) := by
  induction txs generalizing cash c with
  | nil =>
    rw [runTxs_nil] at h
    cases h
    simp
  | cons tx rest ih =>
    rcases hp : processTx now cash c tx with ⟨e1, cash1, c1⟩
    cases e1 with
    | none =>
      rw [runTxs_cons_none now cash c tx rest cash1 c1 hp] at h
      rw [ih cash1 c1 h, processTx_none_log now cash c tx cash1 c1 hp]
      simp
    | some e1 =>
      rw [runTxs_cons_error now cash c tx rest e1 cash1 c1 hp] at h
      cases h

/-- On success, the pending watchlist is unchanged. -/
theorem runTxs_none_watchlist (now : String) (cash : ℚ) (c : Conn)
    (txs : List Transaction) (cash' : ℚ) (c' : Conn)
    (h : runTxs now cash c txs = (none, cash', c')) :
    c'.pending.watchlist = c.pending.watchlist := by
  induction txs generalizing cash c with
  | nil =>
    rw [runTxs_nil] at h
    cases h
    rfl
  | cons tx rest ih =>
    rcases hp : processTx now cash c tx with ⟨e1, cash1, c1⟩
    cases e1 with
    | none =>
      rw [runTxs_cons_none now cash c tx rest cash1 c1 hp] at h
      rw [ih cash1 c1 h, processTx_none_watchlist now cash c tx cash1 c1 hp]
    | some e1 =>
      rw [runTxs_cons_error now cash c tx rest e1 cash1 c1 hp] at h
      cases h

/-- On a raised error, `apply_transactions` closes the connection without
committing: the durable state is exactly the pre-batch state. -/
theorem apply_transactions_error (now : String) (s : DBState) (txs : List Transaction)
    (e : TxError) (cash' : ℚ) (c' : Conn)
    (h : runTxs now s.cash_balance (get_connection s) txs = (some e, cash', c')) :
    apply_transactions now s txs = (some e, s) := by
  have hne : ¬txs.isEmpty = true := by
    intro hnil
    rw [List.isEmpty_iff.mp hnil, runTxs_nil] at h
    cases h
  have hd : c'.durable = s :=
    runTxs_result_durable now s.cash_balance (get_connection s) txs (some e) cash' c' h
  simp only [apply_transactions, if_neg hne, h, Conn.close, hd]

/-- On success with a non-empty batch, `apply_transactions` writes the final
working cash into the pending view and commits it in one step. -/
theorem apply_transactions_none (now : String) (s : DBState) (txs : List Transaction)
    (cash' : ℚ) (c' : Conn) (hne : txs ≠ [])
    (h : runTxs now s.cash_balance (get_connection s) txs = (none, cash', c')) :
    apply_transactions now s txs = (none, { c'.pending with cash_balance := cash' }) := by
  have hne' : ¬txs.isEmpty = true := by
    intro hnil
    exact hne (List.isEmpty_iff.mp hnil)
  simp only [apply_transactions, if_neg hne', h, Conn.exec, Conn.commit, Conn.close]

/-- A found position carries the symbol it was looked up under. -/
theorem findPosition_some_symbol (ps : List Position) (sym : String) (p : Position)
    (h : findPosition ps sym = some p) : p.symbol = sym := by
  have := List.find?_some h
  simpa using this

/-- A found position is a member of the table. -/
theorem findPosition_some_mem (ps : List Position) (sym : String) (p : Position)
    (h : findPosition ps sym = some p) : p ∈ ps :=
  List.mem_of_find?_eq_some h

/-- When no row matches, the upsert is a plain insert. -/
theorem upsertInto_of_not_found (ps : List Position) (p : Position)
    (h : findPosition ps p.symbol = none) : upsertInto ps p = ps ++ [p] := by
  unfold upsertInto
  rw [if_neg]
  intro hany
  rcases List.any_eq_true.mp hany with ⟨q, hq, hqs⟩
  rw [findPosition, List.find?_eq_none] at h
  exact h q hq hqs

theorem findPosition_append (ps l : List Position) (sym : String)
    (h : findPosition ps sym = none) :
    findPosition (ps ++ l) sym = findPosition l sym := by
  unfold findPosition at *
  rw [List.find?_append, h, Option.none_or]

theorem find?_map_replace (ps : List Position) (p : Position)
    (h : ps.any (fun q => q.symbol == p.symbol) = true) :
    findPosition (ps.map (fun q => if q.symbol == p.symbol then p else q)) p.symbol
      = some p := by
  induction ps with
  | nil => simp at h
  | cons q rest ih =>
    simp only [List.any_cons, Bool.or_eq_true] at h
    simp only [List.map_cons]
    by_cases hq : (q.symbol == p.symbol) = true
    · rw [if_pos hq]
      unfold findPosition
      rw [List.find?_cons]
      have hp : (p.symbol == p.symbol) = true := by simp
      rw [hp]
    · rw [if_neg hq]
      unfold findPosition
      rw [List.find?_cons]
      have hq' : (q.symbol == p.symbol) = false := by simpa using hq
      rw [hq']
      exact ih (h.resolve_left hq)

/-- After an upsert, looking the symbol up yields exactly the written row. -/
theorem findPosition_upsertInto_self (ps : List Position) (p : Position) :
    findPosition (upsertInto ps p) p.symbol = some p := by
  unfold upsertInto
  by_cases hany : ps.any (fun q => q.symbol == p.symbol) = true
  · rw [if_pos hany]
    exact find?_map_replace ps p hany
  · rw [if_neg hany]
    have hnone : findPosition ps p.symbol = none := by
      rw [findPosition, List.find?_eq_none]
      intro q hq hqs
      exact hany (List.any_eq_true.mpr ⟨q, hq, hqs⟩)
    rw [findPosition_append ps [p] p.symbol hnone]
    unfold findPosition
    rw [List.find?_cons]
    have hp : (p.symbol == p.symbol) = true := by simp
    rw [hp]

/-- The write `UPDATE positions SET shares = ...` rewrites only the shares of the
matching row as seen by a subsequent lookup. -/
theorem findPosition_setShares (ps : List Position) (sym : String) (r : ℚ) :
    findPosition (setShares ps sym r) sym
      = (findPosition ps sym).map (fun p => { p with shares := r }) := by
  induction ps with
  | nil => rfl
  | cons q rest ih =>
    simp only [setShares, List.map_cons] at ih ⊢
    by_cases hq : (q.symbol == sym) = true
    · rw [if_pos hq]
      unfold findPosition
      rw [List.find?_cons, List.find?_cons]
      have hq2 : (({ q with shares := r } : Position).symbol == sym) = true := hq
      rw [hq2]
      rfl
    · have hq' : (q.symbol == sym) = false := by simpa using hq
      rw [if_neg hq]
      unfold findPosition
      rw [List.find?_cons, List.find?_cons, hq']
      exact ih

/-- Forward equation: a validated buy. -/
theorem processTx_buy_ok (now : String) (cash : ℚ) (c : Conn) (tx : Transaction)
    (hk : tx.kind = "buy") (hc : ¬(cash + tx.cash_impact < 0)) :
    processTx now cash c tx
      = (none, cash + tx.cash_impact, logTx now tx (writeBuy c tx)) := by
  simp only [processTx, if_neg (not_not_intro (Or.inl hk)), if_neg hc, if_pos hk]

/-- Forward equation: a validated sell. -/
theorem processTx_sell_ok (now : String) (cash : ℚ) (c : Conn) (tx : Transaction)
    (p : Position) (hk : tx.kind = "sell") (hc : ¬(cash + tx.cash_impact < 0))
    (hrow : findPosition c.pending.positions tx.symbol = some p)
    (h4 : ¬(p.shares - tx.shares < -eps)) :
    processTx now cash c tx
      = (none, cash + tx.cash_impact, logTx now tx (writeSell c tx (p.shares - tx.shares))) := by
  have h3 : ¬(tx.kind = "buy") := by rw [hk]; decide
  simp only [processTx, if_neg (not_not_intro (Or.inr hk)), if_neg hc, if_neg h3, hrow,
    if_neg h4]

/-- Forward equation: the `cash_balance < 0` guard fires. -/
theorem processTx_cash_error (now : String) (cash : ℚ) (c : Conn) (tx : Transaction)
    (hkind : tx.kind = "buy" ∨ tx.kind = "sell") (hneg : cash + tx.cash_impact < 0) :
    processTx now cash c tx = (some .negativeCash, cash + tx.cash_impact, c) := by
  simp only [processTx, if_neg (not_not_intro hkind), if_pos hneg]

/-- Forward equation: selling a symbol with no open position. -/
theorem processTx_sell_no_position (now : String) (cash : ℚ) (c : Conn) (tx : Transaction)
    (hk : tx.kind = "sell") (hc : ¬(cash + tx.cash_impact < 0))
    (hrow : findPosition c.pending.positions tx.symbol = none) :
    processTx now cash c tx = (some (.noSuchPosition tx.symbol), cash + tx.cash_impact, c) := by
  have h3 : ¬(tx.kind = "buy") := by rw [hk]; decide
  simp only [processTx, if_neg (not_not_intro (Or.inr hk)), if_neg hc, if_neg h3, hrow]

/-- Forward equation: selling more than held beyond the tolerance. -/
theorem processTx_sell_oversized (now : String) (cash : ℚ) (c : Conn) (tx : Transaction)
    (p : Position) (hk : tx.kind = "sell") (hc : ¬(cash + tx.cash_impact < 0))
    (hrow : findPosition c.pending.positions tx.symbol = some p)
    (h4 : p.shares - tx.shares < -eps) :
    processTx now cash c tx = (some (.oversizedSell tx.symbol), cash + tx.cash_impact, c) := by
  have h3 : ¬(tx.kind = "buy") := by rw [hk]; decide
  simp only [processTx, if_neg (not_not_intro (Or.inr hk)), if_neg hc, if_neg h3, hrow,
    if_pos h4]


theorem eps_pos : 0 < eps := by norm_num [eps]

theorem writeBuy_pending_positions (c : Conn) (tx : Transaction) :
    (writeBuy c tx).pending.positions
      = upsertInto c.pending.positions
          (buyPosition (findPosition c.pending.positions tx.symbol) tx) := rfl

theorem buy_step_positions (now : String) (c : Conn) (tx : Transaction) :
    (logTx now tx (writeBuy c tx)).pending.positions
      = upsertInto c.pending.positions
          (buyPosition (findPosition c.pending.positions tx.symbol) tx) := rfl

theorem sell_step_positions (now : String) (c : Conn) (tx : Transaction) (r : ℚ) :
    (logTx now tx (writeSell c tx r)).pending.positions
      = if r ≤ eps then deleteFrom c.pending.positions tx.symbol
        else setShares c.pending.positions tx.symbol r := by
  unfold writeSell
  split <;> rfl

theorem positionsAboveEps_upsertInto (ps : List Position) (p : Position)
    (hinv : PositionsAboveEps ps) (hp : eps < p.shares) :
    PositionsAboveEps (upsertInto ps p) := by
  intro q hq
  unfold upsertInto at hq
  split at hq
  · rcases List.mem_map.mp hq with ⟨x, hx, hxe⟩
    by_cases hxs : (x.symbol == p.symbol) = true
    · rw [if_pos hxs] at hxe
      exact hxe ▸ hp
    · rw [if_neg hxs] at hxe
      exact hxe ▸ hinv x hx
  · rcases List.mem_append.mp hq with hq | hq
    · exact hinv q hq
    · rw [List.mem_singleton.mp hq]
      exact hp

theorem positionsAboveEps_deleteFrom (ps : List Position) (sym : String)
    (hinv : PositionsAboveEps ps) :
    PositionsAboveEps (deleteFrom ps sym) := by
  intro q hq
  exact hinv q (List.mem_of_mem_filter hq)

theorem positionsAboveEps_setShares (ps : List Position) (sym : String) (r : ℚ)
    (hinv : PositionsAboveEps ps) (hr : eps < r) :
    PositionsAboveEps (setShares ps sym r) := by
  intro q hq
  rcases List.mem_map.mp hq with ⟨x, hx, hxe⟩
  by_cases hxs : (x.symbol == sym) = true
  · rw [if_pos hxs] at hxe
    rw [← hxe]
    exact hr
  · rw [if_neg hxs] at hxe
    exact hxe ▸ hinv x hx

theorem processTx_positionsAboveEps (now : String) (cash : ℚ) (c : Conn)
    (tx : Transaction) (cash' : ℚ) (c' : Conn)
    (h : processTx now cash c tx = (none, cash', c'))
    (hinv : PositionsAboveEps c.pending.positions)
    (hbuy : tx.kind = "buy" → eps < tx.shares) :
    PositionsAboveEps c'.pending.positions := by
  rcases (processTx_none_inv now cash c tx cash' c' h).2.2 with ⟨hk, hc⟩ | ⟨hk, p, hrow, h4, hc⟩
  · subst hc
    rw [buy_step_positions]
    apply positionsAboveEps_upsertInto _ _ hinv
    rcases hrow : findPosition c.pending.positions tx.symbol with _ | p
    · simp only [buyPosition]
      have := hbuy hk
      calc eps < tx.shares := this
        _ = 0 + tx.shares := (zero_add tx.shares).symm
    · simp only [buyPosition]
      have hps : eps < p.shares := hinv p (findPosition_some_mem _ _ _ hrow)
      have hts : 0 < tx.shares := lt_trans eps_pos (hbuy hk)
      calc eps < p.shares := hps
        _ ≤ p.shares + tx.shares := by linarith
  · subst hc
    rw [sell_step_positions]
    split
    · exact positionsAboveEps_deleteFrom _ _ hinv
    case isFalse hle =>
      exact positionsAboveEps_setShares _ _ _ hinv (lt_of_not_le hle)

theorem runTxs_positionsAboveEps (now : String) (cash : ℚ) (c : Conn)
    (txs : List Transaction) (cash' : ℚ) (c' : Conn)
    (h : runTxs now cash c txs = (none, cash', c'))
    (hinv : PositionsAboveEps c.pending.positions)
    (hbuy : ∀ tx ∈ txs, tx.kind = "buy" → eps < tx.shares) :
    PositionsAboveEps c'.pending.positions := by
  induction txs generalizing cash c with
  | nil =>
    rw [runTxs_nil] at h
    cases h
    exact hinv
  | cons tx rest ih =>
    rcases hp : processTx now cash c tx with ⟨e1, cash1, c1⟩
    cases e1 with
    | none =>
      rw [runTxs_cons_none now cash c tx rest cash1 c1 hp] at h
      exact ih cash1 c1 h
        (processTx_positionsAboveEps now cash c tx cash1 c1 hp hinv
          (hbuy tx (List.mem_cons_self tx rest)))
        (fun t ht => hbuy t (List.mem_cons_of_mem tx ht))
    | some e1 =>
      rw [runTxs_cons_error now cash c tx rest e1 cash1 c1 hp] at h
      cases h

theorem apply_transactions_positionsAboveEps (now : String) (s : DBState)
    (txs : List Transaction)
    (hinv : PositionsAboveEps s.positions)
    (hbuy : ∀ tx ∈ txs, tx.kind = "buy" → eps < tx.shares) :
    PositionsAboveEps (apply_transactions now s txs).2.positions := by
  by_cases hnil : txs = []
  · subst hnil
    exact hinv
  · rcases hr : runTxs now s.cash_balance (get_connection s) txs with ⟨e, cash', c'⟩
    cases e with
    | some e =>
      rw [apply_transactions_error now s txs e cash' c' hr]
      exact hinv
    | none =>
      rw [apply_transactions_none now s txs cash' c' hnil hr]
      exact runTxs_positionsAboveEps now s.cash_balance (get_connection s) txs cash' c' hr
        hinv hbuy

theorem apply_transactions_cash_nonneg (now : String) (s : DBState)
    (txs : List Transaction) (h : 0 ≤ s.cash_balance) :
    0 ≤ (apply_transactions now s txs).2.cash_balance := by
  by_cases hnil : txs = []
  · subst hnil
    exact h
  · rcases hr : runTxs now s.cash_balance (get_connection s) txs with ⟨e, cash', c'⟩
    cases e with
    | some e =>
      rw [apply_transactions_error now s txs e cash' c' hr]
      exact h
    | none =>
      rw [apply_transactions_none now s txs cash' c' hnil hr]
      exact runTxs_none_cash_nonneg now s.cash_balance (get_connection s) txs cash' c' h hr


/-! ### Claim theorems -/

/-- C8: an empty batch is a no-op success: `apply_transactions` returns
before opening a connection, raises nothing, and leaves cash, positions,
watchlist and activity log untouched. -/
theorem empty_batch_noop (now : String) (s : DBState) :
    apply_transactions now s [] = (none, s) := rfl

/-- C9: `lookup_price` is a total function of the symbol (given the process
hash function), and its value is non-negative — in fact at least 20 — so
`total_equity` is always defined. -/
theorem lookup_price_nonneg (pyHash : String → Int) (symbol : String) :
    0 ≤ lookup_price pyHash symbol ∧ 20 ≤ lookup_price pyHash symbol := by
  unfold lookup_price
  have h0 : (0 : ℚ) ≤ (((pyHash symbol.toUpper).natAbs % 40000 : ℕ) : ℚ) / 100 := by
    positivity
  constructor <;> linarith

/-- C10: on success the final cash balance is the initial balance plus the
sum of the per-transaction cash impacts. -/
theorem cash_balance_is_impact_fold (now : String) (s : DBState)
    (txs : List Transaction) (st : DBState)
    (h : apply_transactions now s txs = (none, st)) :
    st.cash_balance = s.cash_balance + (txs.map Transaction.cash_impact).sum := by
  by_cases hnil : txs = []
  · subst hnil
    have hs : st = s := by
      have : (none, s) = ((none : Option TxError), st) := by rw [← h]; rfl
      exact (Prod.mk.injEq _ _ _ _ ▸ this).2.symm
    subst hs
    simp
  · rcases hr : runTxs now s.cash_balance (get_connection s) txs with ⟨e, cash', c'⟩
    cases e with
    | some e =>
      rw [apply_transactions_error now s txs e cash' c' hr] at h
      simp at h
    | none =>
      rw [apply_transactions_none now s txs cash' c' hnil hr] at h
      have hst : st = { c'.pending with cash_balance := cash' } := by
        simpa using h.symm
      rw [hst]
      exact runTxs_none_cash now s.cash_balance (get_connection s) txs cash' c' hr

theorem cash_balance_is_impact_fold_witness :
    (apply_transactions "t" initialState
        [⟨"buy", "A", 10, 50, "r"⟩]).2.cash_balance
      = initialState.cash_balance
        + (([⟨"buy", "A", 10, 50, "r"⟩] : List Transaction).map Transaction.cash_impact).sum :=
  cash_balance_is_impact_fold "t" initialState [⟨"buy", "A", 10, 50, "r"⟩]
    (apply_transactions "t" initialState [⟨"buy", "A", 10, 50, "r"⟩]).2
    (by
      simp +decide [apply_transactions, runTxs, processTx, get_connection, Conn.exec,
        Conn.commit, Conn.close, findPosition, upsertInto, Transaction.cash_impact, eps,
        logTx, writeBuy, buyPosition, auditEntry, initialState]
      norm_num)


/-- C1: atomicity of `apply_transactions`.  If the batch raises, the durable
state is bit-for-bit the pre-batch state (no effect of earlier transactions
in the batch persists); if it succeeds, the new cash, position writes and
one audit row per transaction are committed together in a single commit,
and nothing else (e.g. the watchlist) changes. -/
theorem apply_transactions_atomic (now : String) (s : DBState) (txs : List Transaction) :
    ((apply_transactions now s txs).1.isSome → (apply_transactions now s txs).2 = s) ∧
    ((apply_transactions now s txs).1 = none →
      (apply_transactions now s txs).2.activity_log
          = s.activity_log ++ txs.map (auditEntry now) ∧
      (apply_transactions now s txs).2.cash_balance
          = s.cash_balance + (txs.map Transaction.cash_impact).sum ∧
      (apply_transactions now s txs).2.watchlist = s.watchlist) := by
  by_cases hnil : txs = []
  · subst hnil
    exact ⟨fun h => rfl, fun _ => ⟨by simp [apply_transactions], by simp [apply_transactions], rfl⟩⟩
  · rcases hr : runTxs now s.cash_balance (get_connection s) txs with ⟨e, cash', c'⟩
    cases e with
    | some e =>
      rw [apply_transactions_error now s txs e cash' c' hr]
      exact ⟨fun _ => rfl, fun h => by simp at h⟩
    | none =>
      rw [apply_transactions_none now s txs cash' c' hnil hr]
      refine ⟨fun h => by simp at h, fun _ => ⟨?_, ?_, ?_⟩⟩
      · have := runTxs_none_log now s.cash_balance (get_connection s) txs cash' c' hr
        simpa [get_connection] using this
      · have := runTxs_none_cash now s.cash_balance (get_connection s) txs cash' c' hr
        simpa [get_connection] using this
      · have := runTxs_none_watchlist now s.cash_balance (get_connection s) txs cash' c' hr
        simpa [get_connection] using this

theorem apply_transactions_atomic_witness :
    (apply_transactions "t" initialState [⟨"hold", "X", 1, 1, "r"⟩]).2 = initialState :=
  (apply_transactions_atomic "t" initialState [⟨"hold", "X", 1, 1, "r"⟩]).1
    (by simp +decide [apply_transactions, runTxs, processTx, get_connection,
      Transaction.cash_impact, initialState, Conn.close])

/-- C2 (counterexample): `update_cash_balance` is a public ledger operation
that mutates cash with no validation, so a state with negative cash is
reachable: the claimed invariant `cash_balance ≥ 0` does not hold for all
reachable states. -/
theorem cash_nonneg_counterexample :
    Reachable (update_cash_balance initialState (-1)) ∧
      (update_cash_balance initialState (-1)).cash_balance < 0 :=
  ⟨Reachable.setCash (-1) Reachable.init, by norm_num [update_cash_balance, initialState]⟩

/-- C2 (amended): for every state reachable from the initialized ledger
through the public operations other than the unvalidated direct cash write
`update_cash_balance` — in particular through any sequence of
`apply_transactions` batches — the cash balance is non-negative. -/
theorem cash_nonneg_of_applierReachable (s : DBState) (h : ApplierReachable s) :
    0 ≤ s.cash_balance := by
  induction h with
  | init => norm_num [initialState]
  | apply now txs hs ih => exact apply_transactions_cash_nonneg now _ txs ih
  | upsert p hs ih => exact ih
  | remove symbol hs ih => exact ih
  | activity a hs ih => exact ih
  | watchlist es hs ih => exact ih

theorem cash_nonneg_of_applierReachable_witness :
    0 ≤ (apply_transactions "t" initialState [⟨"buy", "A", 10, 50, "r"⟩]).2.cash_balance :=
  cash_nonneg_of_applierReachable _
    (ApplierReachable.apply "t" [⟨"buy", "A", 10, 50, "r"⟩] ApplierReachable.init)


/-- C5: if the working cash balance — the initial balance plus the
cumulative cash impact of all earlier transactions of the batch, in
submission order — is driven below zero by a buy, the whole batch fails
with the insufficient-cash error and the durable state is unchanged,
regardless of any later transactions (e.g. restoring sells) in the batch. -/
theorem insufficient_cash_batch_fatal (now : String) (s : DBState)
    (pre post : List Transaction) (tx : Transaction) (cash : ℚ) (c : Conn)
    (hk : tx.kind = "buy")
    (hpre : runTxs now s.cash_balance (get_connection s) pre = (none, cash, c))
    (hneg : cash - tx.shares * tx.price < 0) :
    cash = s.cash_balance + (pre.map Transaction.cash_impact).sum ∧
      apply_transactions now s (pre ++ tx :: post) = (some .negativeCash, s) := by
  have himp : tx.cash_impact = -1 * tx.shares * tx.price := by
    unfold Transaction.cash_impact
    rw [if_pos hk]
  have hneg2 : cash + tx.cash_impact < 0 := by
    rw [himp]
    linarith
  have hstep := processTx_cash_error now cash c tx (Or.inl hk) hneg2
  have hrun : runTxs now s.cash_balance (get_connection s) (pre ++ tx :: post)
      = (some .negativeCash, cash + tx.cash_impact, c) := by
    rw [runTxs_append_none now s.cash_balance (get_connection s) pre (tx :: post) cash c hpre]
    exact runTxs_cons_error now cash c tx post _ _ _ hstep
  exact ⟨runTxs_none_cash now s.cash_balance (get_connection s) pre cash c hpre,
    apply_transactions_error now s (pre ++ tx :: post) _ _ _ hrun⟩

theorem insufficient_cash_batch_fatal_witness :
    (100000 : ℚ) = initialState.cash_balance
        + (([] : List Transaction).map Transaction.cash_impact).sum ∧
      apply_transactions "t" initialState
          ([] ++ (⟨"buy", "X", 2000, 100, "r"⟩ : Transaction) :: [⟨"sell", "X", 2000, 100, "r"⟩])
        = (some .negativeCash, initialState) :=
  insufficient_cash_batch_fatal "t" initialState [] [⟨"sell", "X", 2000, 100, "r"⟩]
    ⟨"buy", "X", 2000, 100, "r"⟩ 100000 (get_connection initialState) rfl
    (by rw [runTxs_nil]; rfl) (by norm_num)

/-- C6: a sell of a symbol with no open position in the working state fails
the whole batch with `noSuchPosition`; a sell whose requested shares exceed
the held shares by more than `1e-6` fails the whole batch with
`oversizedSell`; and a sell with held shares at least the requested shares
minus `1e-6` passes this validation (the iteration succeeds). -/
theorem sell_validation_batch_fatal (now : String) (s : DBState)
    (pre post : List Transaction) (tx : Transaction) (cash : ℚ) (c : Conn)
    (hk : tx.kind = "sell")
    (hpre : runTxs now s.cash_balance (get_connection s) pre = (none, cash, c))
    (hcash : ¬(cash + tx.cash_impact < 0)) :
    (findPosition c.pending.positions tx.symbol = none →
      apply_transactions now s (pre ++ tx :: post)
        = (some (.noSuchPosition tx.symbol), s)) ∧
    (∀ p, findPosition c.pending.positions tx.symbol = some p →
      tx.shares - p.shares > eps →
      apply_transactions now s (pre ++ tx :: post)
        = (some (.oversizedSell tx.symbol), s)) ∧
    (∀ p, findPosition c.pending.positions tx.symbol = some p →
      tx.shares - eps ≤ p.shares →
      processTx now cash c tx = (none, cash + tx.cash_impact,
        logTx now tx (writeSell c tx (p.shares - tx.shares)))) := by
  refine ⟨?_, ?_, ?_⟩
  · intro hrow
    have hstep := processTx_sell_no_position now cash c tx hk hcash hrow
    have hrun : runTxs now s.cash_balance (get_connection s) (pre ++ tx :: post)
        = (some (.noSuchPosition tx.symbol), cash + tx.cash_impact, c) := by
      rw [runTxs_append_none now s.cash_balance (get_connection s) pre (tx :: post) cash c hpre]
      exact runTxs_cons_error now cash c tx post _ _ _ hstep
    exact apply_transactions_error now s (pre ++ tx :: post) _ _ _ hrun
  · intro p hrow hover
    have hover2 : p.shares - tx.shares < -eps := by linarith
    have hstep := processTx_sell_oversized now cash c tx p hk hcash hrow hover2
    have hrun : runTxs now s.cash_balance (get_connection s) (pre ++ tx :: post)
        = (some (.oversizedSell tx.symbol), cash + tx.cash_impact, c) := by
      rw [runTxs_append_none now s.cash_balance (get_connection s) pre (tx :: post) cash c hpre]
      exact runTxs_cons_error now cash c tx post _ _ _ hstep
    exact apply_transactions_error now s (pre ++ tx :: post) _ _ _ hrun
  · intro p hrow hheld
    exact processTx_sell_ok now cash c tx p hk hcash hrow (by linarith)

theorem sell_validation_batch_fatal_witness :
    apply_transactions "t" initialState
        ([] ++ (⟨"sell", "X", 1, 1, "r"⟩ : Transaction) :: [])
      = (some (.noSuchPosition "X"), initialState) :=
  (sell_validation_batch_fatal "t" initialState [] [] ⟨"sell", "X", 1, 1, "r"⟩
      100000 (get_connection initialState) rfl (by rw [runTxs_nil]; rfl)
      (by
        have hsb : (("sell" : String) = "buy") = False := by decide
        norm_num [Transaction.cash_impact, hsb])).1 rfl

/-- C7: a sell that leaves a remaining position (more than `1e-6` shares
left) succeeds and only lowers the share count: the remaining position has
the same `avg_price` and exactly `old_shares - tx.shares` shares.  Stated
for an arbitrary working state, which covers every sell applied anywhere
inside an `apply_transactions` batch. -/
theorem sell_preserves_avg_price (now : String) (cash : ℚ) (c : Conn)
    (tx : Transaction) (p : Position) (hk : tx.kind = "sell")
    (hc : ¬(cash + tx.cash_impact < 0))
    (hrow : findPosition c.pending.positions tx.symbol = some p)
    (hrem : eps < p.shares - tx.shares) :
    (processTx now cash c tx).1 = none ∧
      (processTx now cash c tx).2.1 = cash + tx.cash_impact ∧
      findPosition (processTx now cash c tx).2.2.pending.positions tx.symbol
        = some ⟨tx.symbol, p.shares - tx.shares, p.avg_price⟩ := by
  have h4 : ¬(p.shares - tx.shares < -eps) := by
    have := eps_pos
    linarith
  rw [processTx_sell_ok now cash c tx p hk hc hrow h4]
  refine ⟨rfl, rfl, ?_⟩
  rw [sell_step_positions, if_neg (by linarith : ¬(p.shares - tx.shares ≤ eps)),
    findPosition_setShares, hrow]
  have hsym : p.symbol = tx.symbol := findPosition_some_symbol _ _ _ hrow
  simp only [Option.map_some']
  rw [hsym]

theorem sell_preserves_avg_price_witness :
    (processTx "t" 98800
        ⟨{ cash_balance := 98800, positions := [⟨"ACME", 20, 60⟩],
            activity_log := [], watchlist := [] },
          { cash_balance := 98800, positions := [⟨"ACME", 20, 60⟩],
            activity_log := [], watchlist := [] }⟩
        ⟨"sell", "ACME", 5, 80, "r"⟩).1 = none ∧
      (processTx "t" 98800
        ⟨{ cash_balance := 98800, positions := [⟨"ACME", 20, 60⟩],
            activity_log := [], watchlist := [] },
          { cash_balance := 98800, positions := [⟨"ACME", 20, 60⟩],
            activity_log := [], watchlist := [] }⟩
        ⟨"sell", "ACME", 5, 80, "r"⟩).2.1 = 98800 + (⟨"sell", "ACME", 5, 80, "r"⟩ : Transaction).cash_impact ∧
      findPosition (processTx "t" 98800
        ⟨{ cash_balance := 98800, positions := [⟨"ACME", 20, 60⟩],
            activity_log := [], watchlist := [] },
          { cash_balance := 98800, positions := [⟨"ACME", 20, 60⟩],
            activity_log := [], watchlist := [] }⟩
        ⟨"sell", "ACME", 5, 80, "r"⟩).2.2.pending.positions "ACME"
        = some ⟨"ACME", 20 - 5, 60⟩ :=
  sell_preserves_avg_price "t" 98800 _ ⟨"sell", "ACME", 5, 80, "r"⟩ ⟨"ACME", 20, 60⟩
    rfl (by
      have hsb : (("sell" : String) = "buy") = False := by decide
      norm_num [Transaction.cash_impact, hsb])
    (by simp +decide [findPosition])
    (by norm_num [eps])


theorem buyPosition_symbol (row : Option Position) (tx : Transaction) :
    (buyPosition row tx).symbol = tx.symbol := by
  cases row <;> rfl

theorem findPosition_deleteFrom (ps : List Position) (sym : String) :
    findPosition (deleteFrom ps sym) sym = none := by
  rw [findPosition, List.find?_eq_none]
  intro q hq
  have := List.of_mem_filter hq
  simpa using this

/-- A single validated buy, end to end. -/
theorem apply_single_buy (now : String) (s : DBState) (tx : Transaction)
    (hk : tx.kind = "buy") (hc : ¬(s.cash_balance + tx.cash_impact < 0)) :
    apply_transactions now s [tx]
      = (none, { cash_balance := s.cash_balance + tx.cash_impact,
                 positions := upsertInto s.positions
                   (buyPosition (findPosition s.positions tx.symbol) tx),
                 activity_log := s.activity_log ++ [auditEntry now tx],
                 watchlist := s.watchlist }) := by
  have step := processTx_buy_ok now s.cash_balance (get_connection s) tx hk hc
  have hrun : runTxs now s.cash_balance (get_connection s) [tx]
      = (none, s.cash_balance + tx.cash_impact,
          logTx now tx (writeBuy (get_connection s) tx)) := by
    rw [runTxs_cons_none now _ _ tx [] _ _ step, runTxs_nil]
  rw [apply_transactions_none now s [tx] _ _ (by simp) hrun]
  rfl

/-- Two validated buys in one batch, end to end. -/
theorem apply_buy_pair (now : String) (s : DBState) (tx1 tx2 : Transaction)
    (hk1 : tx1.kind = "buy") (hk2 : tx2.kind = "buy")
    (hc1 : ¬(s.cash_balance + tx1.cash_impact < 0))
    (hc2 : ¬(s.cash_balance + tx1.cash_impact + tx2.cash_impact < 0)) :
    apply_transactions now s [tx1, tx2]
      = (none, { cash_balance := s.cash_balance + tx1.cash_impact + tx2.cash_impact,
                 positions :=
                   upsertInto
                     (upsertInto s.positions
                       (buyPosition (findPosition s.positions tx1.symbol) tx1))
                     (buyPosition
                       (findPosition
                         (upsertInto s.positions
                           (buyPosition (findPosition s.positions tx1.symbol) tx1))
                         tx2.symbol)
                       tx2),
                 activity_log := s.activity_log ++ [auditEntry now tx1, auditEntry now tx2],
                 watchlist := s.watchlist }) := by
  have step1 := processTx_buy_ok now s.cash_balance (get_connection s) tx1 hk1 hc1
  have step2 := processTx_buy_ok now (s.cash_balance + tx1.cash_impact)
    (logTx now tx1 (writeBuy (get_connection s) tx1)) tx2 hk2 hc2
  have hrun : runTxs now s.cash_balance (get_connection s) [tx1, tx2]
      = (none, s.cash_balance + tx1.cash_impact + tx2.cash_impact,
          logTx now tx2 (writeBuy (logTx now tx1 (writeBuy (get_connection s) tx1)) tx2)) := by
    rw [runTxs_cons_none now _ _ tx1 [tx2] _ _ step1,
      runTxs_cons_none now _ _ tx2 [] _ _ step2, runTxs_nil]
  rw [apply_transactions_none now s [tx1, tx2] _ _ (by simp) hrun]
  simp [logTx, writeBuy, Conn.exec, get_connection]


/-- C4: the cost-basis law.  Starting from any state with no open position
on `sym`, two buys `(s1, p1)` then `(s2, p2)` — applied either in one batch
or in two consecutive batches — leave a position with `shares = s1 + s2`
and `avg_price = (s1*p1 + s2*p2) / (s1 + s2)` exactly; and the first buy
creates the position with `shares = s1` and `avg_price = p1`. -/
theorem buy_cost_basis (now now2 : String) (s : DBState) (sym r1 r2 : String)
    (s1 p1 s2 p2 : ℚ)
    (hs1 : 0 < s1) (hs2 : 0 < s2)
    (hnone : findPosition s.positions sym = none)
    (hc1 : 0 ≤ s.cash_balance - s1 * p1)
    (hc2 : 0 ≤ s.cash_balance - s1 * p1 - s2 * p2) :
    (∃ st, apply_transactions now s
        [⟨"buy", sym, s1, p1, r1⟩, ⟨"buy", sym, s2, p2, r2⟩] = (none, st) ∧
      findPosition st.positions sym
        = some ⟨sym, s1 + s2, (s1 * p1 + s2 * p2) / (s1 + s2)⟩) ∧
    (∃ st1 st2, apply_transactions now s [⟨"buy", sym, s1, p1, r1⟩] = (none, st1) ∧
      findPosition st1.positions sym = some ⟨sym, s1, p1⟩ ∧
      apply_transactions now2 st1 [⟨"buy", sym, s2, p2, r2⟩] = (none, st2) ∧
      findPosition st2.positions sym
        = some ⟨sym, s1 + s2, (s1 * p1 + s2 * p2) / (s1 + s2)⟩) := by
  have himp1 : (⟨"buy", sym, s1, p1, r1⟩ : Transaction).cash_impact = -(s1 * p1) := by
    simp [Transaction.cash_impact]
  have himp2 : (⟨"buy", sym, s2, p2, r2⟩ : Transaction).cash_impact = -(s2 * p2) := by
    simp [Transaction.cash_impact]
  have hc1' : ¬(s.cash_balance + (⟨"buy", sym, s1, p1, r1⟩ : Transaction).cash_impact < 0) := by
    rw [himp1]
    intro hlt
    linarith
  have hc2' : ¬(s.cash_balance + (⟨"buy", sym, s1, p1, r1⟩ : Transaction).cash_impact
      + (⟨"buy", sym, s2, p2, r2⟩ : Transaction).cash_impact < 0) := by
    rw [himp1, himp2]
    intro hlt
    linarith
  have hq1 : buyPosition (findPosition s.positions sym) ⟨"buy", sym, s1, p1, r1⟩
      = (⟨sym, 0 + s1, p1⟩ : Position) := by
    rw [hnone]
    rfl
  have hfind1 : findPosition
      (upsertInto s.positions
        (buyPosition (findPosition s.positions sym) ⟨"buy", sym, s1, p1, r1⟩)) sym
      = some ⟨sym, 0 + s1, p1⟩ := by
    rw [hq1]
    exact findPosition_upsertInto_self s.positions ⟨sym, 0 + s1, p1⟩
  have hq2 : buyPosition (some (⟨sym, 0 + s1, p1⟩ : Position)) ⟨"buy", sym, s2, p2, r2⟩
      = (⟨sym, (0 + s1) + s2, ((0 + s1) * p1 + s2 * p2) / ((0 + s1) + s2)⟩ : Position) := rfl
  constructor
  · refine ⟨_, apply_buy_pair now s ⟨"buy", sym, s1, p1, r1⟩ ⟨"buy", sym, s2, p2, r2⟩
      rfl rfl hc1' hc2', ?_⟩
    dsimp only
    rw [hfind1, hq2]
    have := findPosition_upsertInto_self
      (upsertInto s.positions
        (buyPosition (findPosition s.positions sym) ⟨"buy", sym, s1, p1, r1⟩))
      (⟨sym, (0 + s1) + s2, ((0 + s1) * p1 + s2 * p2) / ((0 + s1) + s2)⟩ : Position)
    rw [this]
    rw [zero_add]
  · refine ⟨_, _, apply_single_buy now s ⟨"buy", sym, s1, p1, r1⟩ rfl hc1', ?_,
      apply_single_buy now2 _ ⟨"buy", sym, s2, p2, r2⟩ rfl (by dsimp only; exact hc2'), ?_⟩
    · dsimp only
      rw [hfind1, zero_add]
    · dsimp only
      rw [hfind1, hq2]
      have := findPosition_upsertInto_self
        (upsertInto s.positions
          (buyPosition (findPosition s.positions sym) ⟨"buy", sym, s1, p1, r1⟩))
        (⟨sym, (0 + s1) + s2, ((0 + s1) * p1 + s2 * p2) / ((0 + s1) + s2)⟩ : Position)
      rw [this]
      rw [zero_add]


theorem buy_cost_basis_witness :
    (∃ st, apply_transactions "t" initialState
        [⟨"buy", "ACME", 10, 50, "r"⟩, ⟨"buy", "ACME", 10, 70, "r"⟩] = (none, st) ∧
      findPosition st.positions "ACME"
        = some ⟨"ACME", 10 + 10, (10 * 50 + 10 * 70) / (10 + 10)⟩) ∧
    (∃ st1 st2, apply_transactions "t" initialState [⟨"buy", "ACME", 10, 50, "r"⟩]
        = (none, st1) ∧
      findPosition st1.positions "ACME" = some ⟨"ACME", 10, 50⟩ ∧
      apply_transactions "u" st1 [⟨"buy", "ACME", 10, 70, "r"⟩] = (none, st2) ∧
      findPosition st2.positions "ACME"
        = some ⟨"ACME", 10 + 10, (10 * 50 + 10 * 70) / (10 + 10)⟩) :=
  buy_cost_basis "t" "u" initialState "ACME" "r" "r" 10 50 10 70
    (by norm_num) (by norm_num) rfl
    (by norm_num [initialState]) (by norm_num [initialState])

/-- C3 (counterexample): nothing validates a buy's share count, so a buy of
`5e-7` shares of a fresh symbol is accepted and persists a position whose
shares do not exceed `1e-6`: the claimed invariant fails on a reachable
state. -/
theorem position_min_shares_counterexample :
    Reachable (apply_transactions "t" initialState
        [⟨"buy", "X", 1 / 2000000, 10, "r"⟩]).2 ∧
      (⟨"X", 0 + 1 / 2000000, 10⟩ : Position) ∈
        (apply_transactions "t" initialState
          [⟨"buy", "X", 1 / 2000000, 10, "r"⟩]).2.positions ∧
      ¬(eps < ((⟨"X", 0 + 1 / 2000000, 10⟩ : Position)).shares) := by
  refine ⟨Reachable.apply "t" _ Reachable.init, ?_, by norm_num [eps]⟩
  rw [apply_single_buy "t" initialState ⟨"buy", "X", 1 / 2000000, 10, "r"⟩ rfl (by
    have hbb : (("buy" : String) = "buy") = True := by decide
    norm_num [Transaction.cash_impact, initialState, hbb])]
  dsimp only
  rw [upsertInto_of_not_found initialState.positions _ rfl]
  simp [initialState, buyPosition, findPosition]

/-- C3 (amended): a sell that would leave at most `1e-6` shares deletes the
position row outright; and the `shares > 1e-6` invariant holds for every
state reachable through batches whose buys each carry more than `1e-6`
shares (and direct upserts of such rows) — but not unconditionally, since
buys of at most `1e-6` shares are accepted. -/
theorem position_min_shares_guarded :
    (∀ s, GuardedReachable s → PositionsAboveEps s.positions) ∧
    (∀ (now : String) (cash : ℚ) (c : Conn) (tx : Transaction) (p : Position),
      tx.kind = "sell" → ¬(cash + tx.cash_impact < 0) →
      findPosition c.pending.positions tx.symbol = some p →
      -eps ≤ p.shares - tx.shares → p.shares - tx.shares ≤ eps →
      (processTx now cash c tx).1 = none ∧
        findPosition (processTx now cash c tx).2.2.pending.positions tx.symbol = none) := by
  constructor
  · intro s h
    induction h with
    | init => intro p hp; simp [initialState] at hp
    | apply now txs hbuy hs ih =>
      exact apply_transactions_positionsAboveEps now _ txs ih hbuy
    | setCash b hs ih => exact ih
    | upsert p hp hs ih => exact positionsAboveEps_upsertInto _ _ ih hp
    | remove symbol hs ih => exact positionsAboveEps_deleteFrom _ _ ih
    | activity a hs ih => exact ih
    | watchlist es hs ih => exact ih
  · intro now cash c tx p hk hc hrow hge hle
    rw [processTx_sell_ok now cash c tx p hk hc hrow (by linarith)]
    refine ⟨rfl, ?_⟩
    rw [sell_step_positions, if_pos hle]
    exact findPosition_deleteFrom c.pending.positions tx.symbol

theorem position_min_shares_guarded_witness :
    eps < ((⟨"A", 0 + 10, 50⟩ : Position)).shares :=
  position_min_shares_guarded.1
    (apply_transactions "t" initialState [⟨"buy", "A", 10, 50, "r"⟩]).2
    (GuardedReachable.apply "t" _
      (by
        intro tx htx hk
        rw [List.mem_singleton.mp htx]
        norm_num [eps])
      GuardedReachable.init)
    ⟨"A", 0 + 10, 50⟩
    (by
      rw [apply_single_buy "t" initialState ⟨"buy", "A", 10, 50, "r"⟩ rfl (by
        have hbb : (("buy" : String) = "buy") = True := by decide
        norm_num [Transaction.cash_impact, initialState, hbb])]
      dsimp only
      rw [upsertInto_of_not_found initialState.positions _ rfl]
      simp [initialState, buyPosition, findPosition])

end KabuPilot
